import Mathlib

/-
Verification development for the compgraph streaming dataflow library.

The data model and every operation below are shallow embeddings of the
Python source in src/compgraph (operations.py, graph.py), translated
statement by statement.  Python dictionaries (rows) are modelled as
association lists over a dynamic value type; Python generators are
modelled as functions returning lists of rows; Python object references
(needed for the in-place mutation claims) are modelled as indices into an
explicit heap.  The external sort is not present in the sources and is
modelled from the specification (see the doc comment on sortRows).
-/

namespace Compgraph

/-- Dynamic row value: null, integer, or string (the kinds exercised by
the claims; booleans and lists from the data model are not needed). -/
inductive V where
  | null : V
  | i : Int → V
  | s : String → V
deriving DecidableEq

/-- Python truthiness of a value: None, 0 and the empty string are falsy. -/
def V.truthy : V → Bool
  | .null => false
  | .i n => n != 0
  | .s str => str != ""

/-- Strict comparison of two values, as Python compares them inside key
tuples: integers by value, strings lexicographically; null is treated as
a distinct minimum (spec 4.7); the int-below-string rank is a modelling
choice for cross-kind pairs, which Python rejects and the spec excludes. -/
def V.ltb : V → V → Bool
  | .null, .null => false
  | .null, _ => true
  | _, .null => false
  | .i a, .i b => a < b
  | .i _, .s _ => true
  | .s _, .i _ => false
  | .s a, .s b => a < b

/-- A row is a Python dict: an association list from column name to value,
with at most one entry per column (all constructors below preserve that). -/
abbrev Row := List (String × V)

/-- Python d[c] / d.get(c): the value at the first entry for column c. -/
def Row.get : Row → String → Option V
  | [], _ => none
  | kv :: rest, c => if kv.1 = c then some kv.2 else Row.get rest c

/-- Python `c in d`. -/
def Row.hasCol (r : Row) (c : String) : Bool :=
  (r.get c).isSome

/-- Python d[c] = v: replace the value in place if the column is present,
otherwise append the new entry at the end (dict insertion order). -/
def Row.set (r : Row) (c : String) (v : V) : Row :=
  if r.hasCol c then r.map (fun kv => if kv.1 = c then (c, v) else kv)
  else r ++ [(c, v)]

/-- Python \x7b**a, **b\x7d: keys of a in order with values overridden by b
where shared, then the keys of b that are new, in order. -/
def Row.merge (a b : Row) : Row :=
  a.map (fun kv => (kv.1, (b.get kv.1).getD kv.2))
    ++ b.filter (fun kv => !(a.hasCol kv.1))

/-- Row equality as the spec defines it: same column set, same values. -/
def Row.Equiv (a b : Row) : Prop :=
  ∀ c, a.get c = b.get c

/-- Python tuple(row[k] for k in keys); a missing key behaves as null
(the spec declares missing keys undefined behaviour for joins). -/
def rowKey (keys : List String) (r : Row) : List V :=
  keys.map (fun k => (r.get k).getD V.null)

/-- Python tuple comparison, lexicographic; two values neither of which is
below the other are treated as equal (for int/string values this is
exactly equality, and null equals null). -/
def listLtb : List V → List V → Bool
  | [], [] => false
  | [], _ :: _ => true
  | _ :: _, [] => false
  | a :: as, b :: bs =>
    if V.ltb a b then true else if V.ltb b a then false else listLtb as bs

/-- Python tuple `>=`, which for comparable tuples is the negation of `<`. -/
def listGeb (a b : List V) : Bool :=
  !(listLtb a b)

theorem V.ltb_asymm (a b : V) : V.ltb a b = true → V.ltb b a = false := by
  cases a <;> cases b <;> simp [V.ltb]
  · exact fun h => le_of_lt h
  · exact fun h => le_of_lt h

theorem listLtb_asymm (a b : List V) :
    listLtb a b = true → listLtb b a = false := by
  induction a generalizing b with
  | nil => cases b <;> simp [listLtb]
  | cons x xs ih =>
    cases b with
    | nil => simp [listLtb]
    | cons y ys =>
      simp only [listLtb]
      by_cases h1 : V.ltb x y = true
      · simp [h1, V.ltb_asymm x y h1]
      · by_cases h2 : V.ltb y x = true
        · simp [h1, h2]
        · simp only [h1, h2, if_false]
          exact ih ys

theorem listLtb_irrefl (a : List V) : listLtb a a = false := by
  cases h : listLtb a a
  · rfl
  · have hfalse := listLtb_asymm a a h
    rw [h] at hfalse
    exact hfalse

/-! ## Joiners (operations.py lines 371-565)

LeftJoiner and RightJoiner have structurally identical inner while loops
(buffer the equal-key block of the non-driving side); `drainMatches` is
the shallow embedding of both.  A Python iterator that has raised
StopIteration keeps its last row in the local variable, so the loop state
carries the current row, the remaining rows, and an exhaustion flag. -/

/-- The inner `while key_driver >= key_buf:` loop of LeftJoiner (lines
498-506, draining rows_b) and RightJoiner (lines 545-553, draining
rows_a): rows whose key equals the driving key are appended to the
matched buffer; on exhaustion the loop breaks with the last row kept.
Returns (matched buffer, current row, remaining rows, exhausted flag). -/
def drainMatches (keys : List String) (ka : List V) (b : Row) (restB : List Row)
    (bDone : Bool) (matched : List Row) : List Row × Row × List Row × Bool :=
  if listGeb ka (rowKey keys b) then
    let matched' := if ka = rowKey keys b then matched ++ [b] else matched
    if bDone then (matched', b, restB, true)
    else
      match restB with
      | [] => (matched', b, [], true)
      | b' :: restB' => drainMatches keys ka b' restB' false matched'
  else (matched, b, restB, bDone)

/-- The outer `while True:` loop of LeftJoiner.__call__ (lines 494-518):
drain the matching right block, then either cross-emit the current left
row with each matched right row (Python \x7b**row_a, **row_b_matched\x7d,
no suffix renaming) or emit the left row alone, then advance the left. -/
def leftLoop (keys : List String) (a : Row) (restA : List Row) (b : Row)
    (restB : List Row) (bDone : Bool) : List Row :=
  let r := drainMatches keys (rowKey keys a) b restB bDone []
  let out := if r.1 = [] then [a] else r.1.map (fun m => Row.merge a m)
  match restA with
  | [] => out
  | a' :: restA' => out ++ leftLoop keys a' restA' r.2.1 r.2.2.1 r.2.2.2

/-- LeftJoiner.__call__ (lines 477-518).  The first next() on either
iterator raising StopIteration returns with nothing emitted; the
overlapping-columns set computed at lines 489-490 is never used. -/
def leftJoin (keys : List String) (rowsA rowsB : List Row) : List Row :=
  match rowsA, rowsB with
  | [], _ => []
  | _ :: _, [] => []
  | a :: restA, b :: restB => leftLoop keys a restA b restB false

/-- The outer `while True:` loop of RightJoiner.__call__ (lines 542-565):
the driving side is rows_b, the buffered side rows_a, and the emission is
Python \x7b**row_a_matched, **row_b\x7d (again no suffix renaming). -/
def rightLoop (keys : List String) (b : Row) (restB : List Row) (a : Row)
    (restA : List Row) (aDone : Bool) : List Row :=
  let r := drainMatches keys (rowKey keys b) a restA aDone []
  let out := if r.1 = [] then [b] else r.1.map (fun m => Row.merge m b)
  match restB with
  | [] => out
  | b' :: restB' => out ++ rightLoop keys b' restB' r.2.1 r.2.2.1 r.2.2.2

/-- RightJoiner.__call__ (lines 524-565); like LeftJoiner, it returns at
once if either input is empty and never uses the overlap set. -/
def rightJoin (keys : List String) (rowsA rowsB : List Row) : List Row :=
  match rowsA, rowsB with
  | [], _ => []
  | _ :: _, [] => []
  | a :: restA, b :: restB => rightLoop keys b restB a restA false

/-- InnerJoiner lines 386-387: (columns(first row of a) ∩ columns(first
row of b)) − keys, the only place any joiner computes column overlap. -/
def overlapCols (keys : List String) (a b : Row) : List String :=
  (a.map Prod.fst).filter (fun c => b.hasCol c && !(decide (c ∈ keys)))

/-- The dict comprehensions at lines 400-408 / 437-444: rename the
overlapping columns of each side with its suffix. -/
def renameRow (ov : List String) (suf : String) (r : Row) : Row :=
  r.map (fun kv => (if kv.1 ∈ ov then kv.1 ++ suf else kv.1, kv.2))

/-- One emitted inner-join row: `yield \x7b**row_a_renamed, **row_b_renamed\x7d`. -/
def innerEmit (ov : List String) (sa sb : String) (a m : Row) : Row :=
  Row.merge (renameRow ov sa a) (renameRow ov sb m)

/-- `len(matched_rows_b) > 0 and tuple(...) == key`: the guard at lines
396-399 / 432-435 before cross-emitting the buffered block. -/
def matchedKeyIs (keys : List String) (matched : List Row) (k : List V) : Bool :=
  match matched with
  | [] => false
  | m :: _ => decide (rowKey keys m = k)

/-- The second `while True:` loop of InnerJoiner.__call__ (lines 429-449),
entered when rows_b is exhausted: emit the remaining left rows whose key
equals the buffered block key. -/
def innerFlush (keys ov : List String) (sa sb : String)
    (matched : List Row) (a : Row) (restA : List Row) : List Row :=
  let out := if matchedKeyIs keys matched (rowKey keys a)
             then matched.map (fun m => innerEmit ov sa sb a m) else []
  match restA with
  | [] => out
  | a' :: restA' => out ++ innerFlush keys ov sa sb matched a' restA'

/-- The first `while True:` loop of InnerJoiner.__call__ (lines 391-427):
when key_a < key_b cross-emit the buffered block against the current left
row and advance the left side; otherwise grow or reset the buffered right
block and advance the right side, falling into the flush loop when the
right side is exhausted. -/
def innerLoop (keys ov : List String) (sa sb : String) (a : Row) (restA : List Row)
    (b : Row) (restB : List Row) (matched : List Row) : List Row :=
  let ka := rowKey keys a
  let kb := rowKey keys b
  if listLtb ka kb then
    let out := if matchedKeyIs keys matched ka
               then matched.map (fun m => innerEmit ov sa sb a m) else []
    match restA with
    | [] => out
    | a' :: restA' => out ++ innerLoop keys ov sa sb a' restA' b restB matched
  else
    let matched' :=
      match matched with
      | [] => [b]
      | m :: _ => if rowKey keys m = kb then matched ++ [b] else [b]
    match restB with
    | [] => innerFlush keys ov sa sb matched' a restA
    | b' :: restB' => innerLoop keys ov sa sb a restA b' restB' matched'
termination_by restA.length + restB.length

/-- InnerJoiner.__call__ (lines 374-449). -/
def innerJoin (sa sb : String) (keys : List String) (rowsA rowsB : List Row) :
    List Row :=
  match rowsA, rowsB with
  | [], _ => []
  | _ :: _, [] => []
  | a :: restA, b :: restB =>
    innerLoop keys (overlapCols keys a b) sa sb a restA b restB []

/-! ## OuterJoiner (operations.py lines 452-471)

OuterJoiner builds one Python dict per side keyed by the key tuple (the
last row with a given key wins) and merges per key with the left side
taking precedence.  Python set iteration order is unspecified; the
embedding fixes it as: keys of dict_a in insertion order, then the new
keys of dict_b.  The claims about OuterJoiner are stated insensitively to
that order. -/

/-- One step of the dict comprehension \x7bkey(row): row for row in rows\x7d. -/
def dictInsert (d : List (List V × Row)) (k : List V) (r : Row) :
    List (List V × Row) :=
  if d.any (fun kv => kv.1 = k) then
    d.map (fun kv => if kv.1 = k then (k, r) else kv)
  else d ++ [(k, r)]

/-- `dict_a = \x7btuple(row[k] for k in keys): row for row in rows_a\x7d`. -/
def rowsDict (keys : List String) (rows : List Row) : List (List V × Row) :=
  rows.foldl (fun d r => dictInsert d (rowKey keys r) r) []

/-- Python dict .get on the key-tuple dict. -/
def dictGet (d : List (List V × Row)) (k : List V) : Option Row :=
  match d with
  | [] => none
  | kv :: rest => if kv.1 = k then some kv.2 else dictGet rest k

/-- `\x7bk: row_a.get(k, row_b.get(k)) for k in set(row_a) | set(row_b)\x7d`:
the left row wins shared columns; column order modelled as left then new
right. -/
def outerMergeRow (ra rb : Row) : Row :=
  ra ++ rb.filter (fun kv => !(ra.hasCol kv.1))

/-- OuterJoiner.__call__ (lines 455-471). -/
def outerJoin (keys : List String) (rowsA rowsB : List Row) : List Row :=
  let da := rowsDict keys rowsA
  let db := rowsDict keys rowsB
  let allKeys := da.map Prod.fst
    ++ (db.map Prod.fst).filter (fun k => !(da.any (fun kv => kv.1 = k)))
  allKeys.map (fun k =>
    outerMergeRow ((dictGet da k).getD []) ((dictGet db k).getD []))

/-! ## Split (operations.py lines 191-218)

The default separator is the regex `\s`, a single-character whitespace
class; `re.finditer` then yields one span (i, i+1) per whitespace
character, left to right.  Strings are handled as their character lists
so that Python string slicing is literal. -/

/-- A character matched by the regex `\s` (the characters Python
classifies as whitespace in the ASCII range). -/
def isWsChar (c : Char) : Bool :=
  c = ' ' || c = '\t' || c = '\n' || c = '\x0b' || c = '\x0c' || c = '\r'

/-- `re.finditer(r"\s", s)` from position i onwards: the spans
(m.start(), m.end()) of the single-character matches, in order. -/
def wsSpansFrom (cs : List Char) (i : Nat) : List (Nat × Nat) :=
  match cs with
  | [] => []
  | c :: rest =>
    (if isWsChar c then [(i, i + 1)] else []) ++ wsSpansFrom rest (i + 1)

/-- All `\s` match spans of a string. -/
def wsSpans (cs : List Char) : List (Nat × Nat) :=
  wsSpansFrom cs 0

/-- Python slice s[a:b]. -/
def strSlice (cs : List Char) (a b : Nat) : List Char :=
  (cs.drop a).take (b - a)

/-- Python str.strip(): drop whitespace from both ends. -/
def trimWs (cs : List Char) : List Char :=
  ((cs.dropWhile isWsChar).reverse.dropWhile isWsChar).reverse

/-- The body of Split.__call__ (lines 207-218): walk the match spans
keeping last_end; before each match starting after position 0 emit the
stripped slice since last_end (even when it is empty), and finally emit
the stripped tail if last_end has not reached the end. -/
def splitLoop (cs : List Char) (lastEnd : Nat) :
    List (Nat × Nat) → List (List Char)
  | [] => if lastEnd < cs.length then [trimWs (strSlice cs lastEnd cs.length)] else []
  | (st, en) :: rest =>
    (if st ≠ 0 then [trimWs (strSlice cs lastEnd st)] else []) ++
      splitLoop cs en rest

/-- Split.__call__ (lines 202-218) with the default separator: a row
without the column passes through unchanged; otherwise one row per
emitted token, the column replaced by the token.  (A non-string value in
the column raises TypeError in Python; the claims only concern string
values, and the embedding returns no rows there.) -/
def splitCall (col : String) (row : Row) : List Row :=
  match row.get col with
  | none => [row]
  | some (V.s str) =>
    (splitLoop str.data 0 (wsSpans str.data)).map
      (fun tok => Row.set row col (V.s (String.mk tok)))
  | some _ => []

/-! Specification-side description of the split used to state the
corrected claim: cut the string at every whitespace character keeping
empty pieces, then drop a leading empty piece (the code only suppresses
the piece before a match at position 0) and an empty trailing piece (the
code only emits the tail when last_end is strictly inside the string). -/

/-- Cut a string at each whitespace character, keeping empty pieces. -/
def splitKeep : List Char → List (List Char)
  | [] => [[]]
  | c :: cs =>
    if isWsChar c then [] :: splitKeep cs
    else
      match splitKeep cs with
      | [] => [[c]]
      | t :: ts => (c :: t) :: ts

/-- Drop one leading empty piece, if any. -/
def dropHeadEmpty : List (List Char) → List (List Char)
  | [] :: ts => ts
  | ts => ts

/-- Drop one trailing empty piece, if any. -/
def dropTailEmpty (ts : List (List Char)) : List (List Char) :=
  if ts.getLast? = some [] then ts.dropLast else ts

/-- The tokens Split actually yields, described structurally. -/
def splitTokens (cs : List Char) : List (List Char) :=
  dropTailEmpty (dropHeadEmpty (splitKeep cs))

/-! ## Reduce grouping and Count (operations.py lines 92-101, 316-337) -/

/-- itertools.groupby: maximal contiguous runs of rows with equal key,
paired with that key, in input order. -/
def groupRuns {K : Type} [DecidableEq K] (f : Row → K) :
    List Row → List (K × List Row)
  | [] => []
  | r :: rs =>
    match groupRuns f rs with
    | [] => [(f r, [r])]
    | (k, g) :: rest =>
      if f r = k then (f r, r :: g) :: rest
      else (f r, [r]) :: (k, g) :: rest

/-- `[x.get(val) for val in group_key]`: the Count grouping key; a
missing column and a stored null both read as null, as Python .get
returns None for both. -/
def countKey (groupKey : List String) (r : Row) : List V :=
  groupKey.map (fun k => (r.get k).getD V.null)

/-- `\x7b**dict(zip(group_key, key)), column: n\x7d` for one emitted group. -/
def countEmit (groupKey : List String) (col : String) (k : List V) (n : Nat) :
    Row :=
  Row.set (List.zip groupKey k) col (V.i (Int.ofNat n))

/-- Count.__call__ (lines 332-337): regroup the incoming rows by the
.get-key, and for each run whose key values are all truthy emit the key
columns plus the run length; other runs are suppressed. -/
def countCall (col : String) (groupKey : List String) (rows : List Row) :
    List Row :=
  (groupRuns (countKey groupKey) rows).filterMap
    (fun kg =>
      if kg.1.all V.truthy then some (countEmit groupKey col kg.1 kg.2.length)
      else none)

/-! ## External sort (graph.py line 58)

`Graph.sort` delegates to `external_sort.ExternalSort`, whose source file
is not part of the repository snapshot; the sort is modelled from the
specification. -/

/-- Modelled from the spec: external_sort.py is missing from the sources;
spec 4.6 defines Sort(keys) as a stable sort of the stream by the
ascending key tuple.  Stable insertion: a row is placed before the first
row whose key is not strictly below its own. -/
def insertSorted (keys : List String) (r : Row) : List Row → List Row
  | [] => [r]
  | x :: xs =>
    if listLtb (rowKey keys x) (rowKey keys r) then x :: insertSorted keys r xs
    else r :: x :: xs

/-- Modelled from the spec: the stream emitted by `.sort(keys)` — a
stable sort of the input rows by their key tuple. -/
def sortRows (keys : List String) (rows : List Row) : List Row :=
  rows.foldr (insertSorted keys) []

/-! ## Graph.run (graph.py lines 73-83) -/

/-- The abstract error kinds of spec section 7 that Graph.run can raise
itself; the missing-operator TypeError at line 77 realises ENoSource. -/
inductive RunErr where
  | eNoSource : RunErr
deriving DecidableEq

/-- An operator as the executor sees it: from the named sources and the
list of upstream streams, produce the output stream. -/
def OpFn : Type :=
  List (String × List Row) → List (List Row) → List Row

/-- A graph node: an optional operator (the `operation` field, None until
a builder sets it) and its upstream graphs. -/
inductive GraphM where
  | node : Option OpFn → List GraphM → GraphM

/-- Graph.run (lines 73-83): raise if the operator field is missing, else
dispatch on the number of upstream graphs (0, 1, or 2, the only shapes
the builder creates), pulling each upstream recursively.  An error
terminates the run with no rows delivered after it. -/
def GraphM.run (sources : List (String × List Row)) : GraphM →
    Except RunErr (List Row)
  | .node none _ => .error .eNoSource
  | .node (some op) gs =>
    match gs with
    | [] => .ok (op sources [])
    | [g] => do
      let r ← g.run sources
      .ok (op sources [r])
    | g0 :: g1 :: _ => do
      let r0 ← g0.run sources
      let r1 ← g1.run sources
      .ok (op sources [r0, r1])

/-! ## In-place mappers over an explicit heap (operations.py lines
158-188 and 568-581)

FilterPunctuation, LowerCase and BinaryOperation assign into the row dict
they were given and yield that dict.  To talk about object identity, the
heap is a list of rows and a row object is its index; a mapper takes the
heap and the address of its input row and returns the new heap and the
addresses it yields. -/

/-- string.punctuation: the ASCII characters at codes 33-47, 58-64,
91-96 and 123-126. -/
def isAsciiPunct (c : Char) : Bool :=
  (33 ≤ c.toNat && c.toNat ≤ 47) || (58 ≤ c.toNat && c.toNat ≤ 64) ||
    (91 ≤ c.toNat && c.toNat ≤ 96) || (123 ≤ c.toNat && c.toNat ≤ 126)

/-- `row[column].translate(str.maketrans("", "", string.punctuation))`. -/
def stripPunct (str : String) : String :=
  String.mk (str.data.filter (fun c => !isAsciiPunct c))

/-- `row[column].lower()`. -/
def lowerStr (str : String) : String :=
  String.mk (str.data.map Char.toLower)

/-- FilterPunctuation.__call__ (lines 167-170): `row[col] = filtered;
yield row` — update the row object in place and yield its address; None
models the TypeError Python raises when the column is missing or not a
string. -/
def filterPunctuationH (col : String) (h : List Row) (addr : Nat) :
    Option (List Row × List Nat) :=
  match (h.getD addr []).get col with
  | some (V.s str) =>
    some (h.set addr (Row.set (h.getD addr []) col (V.s (stripPunct str))),
      [addr])
  | _ => none

/-- LowerCase.__call__ (lines 186-188): `row[col] = row[col].lower();
yield row`. -/
def lowerCaseH (col : String) (h : List Row) (addr : Nat) :
    Option (List Row × List Nat) :=
  match (h.getD addr []).get col with
  | some (V.s str) =>
    some (h.set addr (Row.set (h.getD addr []) col (V.s (lowerStr str))),
      [addr])
  | _ => none

/-- BinaryOperation.__call__ (lines 579-581): `row[col] =
self.operation(row); yield row`, for an arbitrary configured operation. -/
def binaryOperationH (f : Row → V) (col : String) (h : List Row) (addr : Nat) :
    List Row × List Nat :=
  (h.set addr (Row.set (h.getD addr []) col (f (h.getD addr []))), [addr])

/-! ## Row lookup and merge lemmas -/

theorem Row.get_append (l1 l2 : Row) (c : String) :
    Row.get (l1 ++ l2) c = (Row.get l1 c).or (Row.get l2 c) := by
  induction l1 with
  | nil => simp [Row.get]
  | cons kv rest ih =>
    by_cases h : kv.1 = c
    · simp [Row.get, h]
    · simp [Row.get, h, ih]

theorem Row.get_override (a b : Row) (c : String) :
    Row.get (a.map (fun kv => (kv.1, (Row.get b kv.1).getD kv.2))) c =
      match Row.get a c with
      | none => none
      | some v => some ((Row.get b c).getD v) := by
  induction a with
  | nil => simp [Row.get]
  | cons kv rest ih =>
    by_cases h : kv.1 = c
    · simp [Row.get, h]
    · simp [Row.get, h, ih]

theorem Row.get_filterNew (a b : Row) (c : String) :
    Row.get (b.filter (fun kv => !(Row.hasCol a kv.1))) c =
      if Row.hasCol a c then none else Row.get b c := by
  induction b with
  | nil => simp [Row.get]
  | cons kv rest ih =>
    by_cases hkc : kv.1 = c
    · subst hkc
      by_cases ha : Row.hasCol a kv.1
      · simp [List.filter_cons, ha, ih]
      · simp [List.filter_cons, ha, Row.get]
    · by_cases ha : Row.hasCol a kv.1
      · simp [List.filter_cons, ha, ih, Row.get, hkc]
      · simp [List.filter_cons, ha, Row.get, hkc, ih]

theorem Row.get_none_of_hasCol_false (x : Row) (c : String)
    (h : Row.hasCol x c = false) : Row.get x c = none := by
  unfold Row.hasCol at h
  exact Option.not_isSome_iff_eq_none.mp (by simp [h])

theorem Row.get_merge (a b : Row) (c : String) :
    Row.get (Row.merge a b) c =
      if Row.hasCol a c then
        (if Row.hasCol b c then Row.get b c else Row.get a c)
      else Row.get b c := by
  unfold Row.merge
  rw [Row.get_append, Row.get_override, Row.get_filterNew]
  by_cases ha : Row.hasCol a c
  · rcases hga : Row.get a c with _ | v
    · rw [Row.hasCol, hga] at ha
      simp at ha
    · by_cases hb : Row.hasCol b c
      · rcases hgb : Row.get b c with _ | w
        · rw [Row.hasCol, hgb] at hb
          simp at hb
        · simp [ha, hb, hga, hgb, Option.or]
      · have hgbn : Row.get b c = none :=
          Row.get_none_of_hasCol_false b c (by simpa using hb)
        simp [ha, hb, hga, hgbn, Option.or]
  · have hga : Row.get a c = none :=
      Row.get_none_of_hasCol_false a c (by simpa using ha)
    simp [ha, hga, Option.or]

theorem rowKey_get_eq (keys : List String) (x y : Row)
    (hk : rowKey keys x = rowKey keys y) :
    ∀ c ∈ keys, (Row.get x c).getD V.null = (Row.get y c).getD V.null := by
  unfold rowKey at hk
  induction keys with
  | nil => intro c hc; exact absurd hc (List.not_mem_nil c)
  | cons k ks ih =>
    simp only [List.map_cons, List.cons.injEq] at hk
    intro c hc
    rcases List.mem_cons.mp hc with h | h
    · subst h
      exact hk.1
    · exact ih hk.2 c h

theorem exists_entry_of_hasCol (x : Row) (c : String)
    (h : Row.hasCol x c = true) : ∃ kv ∈ x, kv.1 = c := by
  induction x with
  | nil => simp [Row.hasCol, Row.get] at h
  | cons kv rest ih =>
    by_cases hkc : kv.1 = c
    · exact ⟨kv, List.mem_cons_self kv rest, hkc⟩
    · have : Row.hasCol rest c = true := by
        simpa [Row.hasCol, Row.get, hkc] using h
      obtain ⟨kv', hmem, heq⟩ := ih this
      exact ⟨kv', List.mem_cons_of_mem kv hmem, heq⟩

/-- The decidable premise of the amended left/right duality: every column
shared by the two rows is a join key. -/
def sharedOnlyKeys (keys : List String) (x y : Row) : Bool :=
  x.all (fun kv => !(Row.hasCol y kv.1) || decide (kv.1 ∈ keys))

theorem sharedOnlyKeys_spec (keys : List String) (x y : Row)
    (h : sharedOnlyKeys keys x y = true) :
    ∀ c, Row.hasCol x c = true → Row.hasCol y c = true → c ∈ keys := by
  intro c hx hy
  obtain ⟨kv, hmem, heq⟩ := exists_entry_of_hasCol x c hx
  have := (List.all_eq_true.mp h) kv hmem
  rw [heq] at this
  rcases Bool.or_eq_true_iff.mp this with h1 | h1
  · rw [hy] at h1
    simp at h1
  · exact of_decide_eq_true h1

/-- Dict union commutes up to lookup when the shared columns are key
columns and the two rows have equal key tuples. -/
theorem Row.merge_comm_of (keys : List String) (x y : Row)
    (hshared : ∀ c, Row.hasCol x c = true → Row.hasCol y c = true → c ∈ keys)
    (hk : rowKey keys x = rowKey keys y) :
    Row.Equiv (Row.merge x y) (Row.merge y x) := by
  intro c
  rw [Row.get_merge, Row.get_merge]
  by_cases hx : Row.hasCol x c
  · by_cases hy : Row.hasCol y c
    · simp only [hx, hy, if_true]
      have hck : c ∈ keys := hshared c hx hy
      have hg := rowKey_get_eq keys x y hk c hck
      rcases hgx : Row.get x c with _ | u
      · rw [Row.hasCol, hgx] at hx
        simp at hx
      · rcases hgy : Row.get y c with _ | w
        · rw [Row.hasCol, hgy] at hy
          simp at hy
        · rw [hgx, hgy] at hg
          simp only [Option.getD_some] at hg
          exact congrArg some hg.symm
    · simp [hx, hy]
  · by_cases hy : Row.hasCol y c
    · simp [hx, hy]
    · simp [hx, hy, Row.get_none_of_hasCol_false x c (by simpa using hx),
        Row.get_none_of_hasCol_false y c (by simpa using hy)]

/-! ## Drain and duality lemmas -/

/-- Unfolding drainMatches when the loop condition fails. -/
theorem drain_stop (keys : List String) (ka : List V) (b : Row)
    (restB : List Row) (bDone : Bool) (matched : List Row)
    (h : ¬ listGeb ka (rowKey keys b) = true) :
    drainMatches keys ka b restB bDone matched = (matched, b, restB, bDone) := by
  rw [drainMatches.eq_def, if_neg h]

/-- Unfolding drainMatches when the stream is already exhausted. -/
theorem drain_done (keys : List String) (ka : List V) (b : Row)
    (restB : List Row) (matched : List Row)
    (h : listGeb ka (rowKey keys b) = true) :
    drainMatches keys ka b restB true matched =
      ((if ka = rowKey keys b then matched ++ [b] else matched),
        b, restB, true) := by
  rw [drainMatches.eq_def, if_pos h]
  rfl

/-- Unfolding drainMatches when the stream runs out at this step. -/
theorem drain_last (keys : List String) (ka : List V) (b : Row)
    (matched : List Row) (h : listGeb ka (rowKey keys b) = true) :
    drainMatches keys ka b [] false matched =
      ((if ka = rowKey keys b then matched ++ [b] else matched),
        b, [], true) := by
  rw [drainMatches.eq_def, if_pos h]
  rfl

/-- Unfolding drainMatches on a successful advance. -/
theorem drain_step (keys : List String) (ka : List V) (b b2 : Row)
    (restB : List Row) (matched : List Row)
    (h : listGeb ka (rowKey keys b) = true) :
    drainMatches keys ka b (b2 :: restB) false matched =
      drainMatches keys ka b2 restB false
        (if ka = rowKey keys b then matched ++ [b] else matched) := by
  rw [drainMatches.eq_def, if_pos h]
  rfl

/-- Buffered-row growth preserves provenance: members of the possibly
extended buffer are old members or the current row with the driving key. -/
theorem matched_grow (keys : List String) (ka : List V) (b : Row)
    (matched : List Row) (m : Row)
    (hm : m ∈ (if ka = rowKey keys b then matched ++ [b] else matched)) :
    m ∈ matched ∨ (m = b ∧ rowKey keys m = ka) := by
  by_cases hkey : ka = rowKey keys b
  · rw [if_pos hkey] at hm
    rcases List.mem_append.mp hm with h | h
    · exact Or.inl h
    · have hmb : m = b := List.mem_singleton.mp h
      exact Or.inr ⟨hmb, by rw [hmb, hkey]⟩
  · rw [if_neg hkey] at hm
    exact Or.inl hm

/-- What the shared inner while loop guarantees: every newly buffered row
comes from the drained stream and has the driving key; the final current
row and remaining rows also come from the drained stream. -/
theorem drainMatches_spec (keys : List String) (ka : List V) :
    ∀ (restB : List Row) (b : Row) (bDone : Bool) (matched : List Row),
      (∀ m ∈ (drainMatches keys ka b restB bDone matched).1,
        m ∈ matched ∨ (m ∈ b :: restB ∧ rowKey keys m = ka)) ∧
      (drainMatches keys ka b restB bDone matched).2.1 ∈ b :: restB ∧
      (∀ y ∈ (drainMatches keys ka b restB bDone matched).2.2.1,
        y ∈ b :: restB) := by
  intro restB
  induction restB with
  | nil =>
    intro b bDone matched
    by_cases hgeb : listGeb ka (rowKey keys b) = true
    · cases bDone
      · rw [drain_last keys ka b matched hgeb]
        refine ⟨?_, by simp, by simp⟩
        intro m hm
        rcases matched_grow keys ka b matched m hm with h | h
        · exact Or.inl h
        · exact Or.inr ⟨by simp [h.1], h.2⟩
      · rw [drain_done keys ka b [] matched hgeb]
        refine ⟨?_, by simp, by simp⟩
        intro m hm
        rcases matched_grow keys ka b matched m hm with h | h
        · exact Or.inl h
        · exact Or.inr ⟨by simp [h.1], h.2⟩
    · rw [drain_stop keys ka b [] bDone matched hgeb]
      exact ⟨fun m hm => Or.inl hm, by simp, by simp⟩
  | cons b2 restB2 ih =>
    intro b bDone matched
    by_cases hgeb : listGeb ka (rowKey keys b) = true
    · cases bDone
      · rw [drain_step keys ka b b2 restB2 matched hgeb]
        have hrec := ih b2 false
          (if ka = rowKey keys b then matched ++ [b] else matched)
        refine ⟨?_, List.mem_cons_of_mem b hrec.2.1, ?_⟩
        · intro m hm
          rcases hrec.1 m hm with h | h
          · rcases matched_grow keys ka b matched m h with h2 | h2
            · exact Or.inl h2
            · exact Or.inr ⟨by simp [h2.1], h2.2⟩
          · exact Or.inr ⟨List.mem_cons_of_mem b h.1, h.2⟩
        · intro y hy
          exact List.mem_cons_of_mem b (hrec.2.2 y hy)
      · rw [drain_done keys ka b (b2 :: restB2) matched hgeb]
        refine ⟨?_, by simp, fun y hy => List.mem_cons_of_mem b hy⟩
        intro m hm
        rcases matched_grow keys ka b matched m hm with h | h
        · exact Or.inl h
        · exact Or.inr ⟨by simp [h.1], h.2⟩
    · rw [drain_stop keys ka b (b2 :: restB2) bDone matched hgeb]
      exact ⟨fun m hm => Or.inl hm, by simp,
        fun y hy => List.mem_cons_of_mem b hy⟩

theorem Row.equiv_refl (r : Row) : Row.Equiv r r := fun _ => rfl

theorem forall2_map_pair (f g : Row → Row) :
    ∀ l : List Row, (∀ m ∈ l, Row.Equiv (f m) (g m)) →
      List.Forall₂ Row.Equiv (l.map f) (l.map g) := by
  intro l
  induction l with
  | nil => intro _; exact List.Forall₂.nil
  | cons m rest ih =>
    intro h
    exact List.Forall₂.cons (h m (List.mem_cons_self m rest))
      (ih fun x hx => h x (List.mem_cons_of_mem m hx))

/-- The two outer loops of LeftJoiner and RightJoiner, run with the same
driving stream and the same buffered stream, emit pointwise-equivalent
rows when every column shared between a driving row and a buffered row is
a join key (the only difference between the loops is the dict merge
order, which then commutes). -/
theorem dualLoop (keys : List String) :
    ∀ (restA : List Row) (a b : Row) (restB : List Row) (d : Bool),
      (∀ x ∈ a :: restA, ∀ y ∈ b :: restB,
        ∀ c, Row.hasCol x c = true → Row.hasCol y c = true → c ∈ keys) →
      List.Forall₂ Row.Equiv (leftLoop keys a restA b restB d)
        (rightLoop keys a restA b restB d) := by
  intro restA
  induction restA with
  | nil =>
    intro a b restB d H
    simp only [leftLoop, rightLoop]
    by_cases hm : (drainMatches keys (rowKey keys a) b restB d []).1 = []
    · simp only [hm, if_pos rfl]
      exact List.Forall₂.cons (Row.equiv_refl a) List.Forall₂.nil
    · simp only [if_neg hm]
      refine forall2_map_pair _ _ _ ?_
      intro m hmem
      have hspec := (drainMatches_spec keys (rowKey keys a) restB b d []).1 m hmem
      rcases hspec with h | h
      · exact absurd h (List.not_mem_nil m)
      · exact Row.merge_comm_of keys a m
          (H a (List.mem_cons_self a []) m h.1) h.2.symm
  | cons a' restA' ih =>
    intro a b restB d H
    simp only [leftLoop, rightLoop]
    have hspec := drainMatches_spec keys (rowKey keys a) restB b d []
    refine List.rel_append ?_ ?_
    · by_cases hm : (drainMatches keys (rowKey keys a) b restB d []).1 = []
      · simp only [hm, if_pos rfl]
        exact List.Forall₂.cons (Row.equiv_refl a) List.Forall₂.nil
      · simp only [if_neg hm]
        refine forall2_map_pair _ _ _ ?_
        intro m hmem
        rcases hspec.1 m hmem with h | h
        · exact absurd h (List.not_mem_nil m)
        · exact Row.merge_comm_of keys a m
            (H a (List.mem_cons_self a _) m h.1) h.2.symm
    · refine ih a' _ _ _ ?_
      intro x hx y hy
      refine H x (List.mem_cons_of_mem a hx) y ?_
      rcases List.mem_cons.mp hy with h | h
      · rw [h]
        exact hspec.2.1
      · exact hspec.2.2 y h

/-! ## Emission-shape lemmas for the joiners -/

/-- Growth of the inner-join buffered block: a member of the updated
block is an old member or the appended right row. -/
theorem innerMatched_grow (keys : List String) (kb : List V) (b : Row)
    (matched : List Row) (y : Row)
    (hy : y ∈ (match matched with
      | [] => [b]
      | m :: _ => if rowKey keys m = kb then matched ++ [b] else [b])) :
    y ∈ matched ∨ y = b := by
  cases matched with
  | nil =>
    simp only [List.mem_singleton] at hy
    exact Or.inr hy
  | cons m rest =>
    have hy2 : y ∈ (if rowKey keys m = kb then (m :: rest) ++ [b] else [b]) := hy
    by_cases hk : rowKey keys m = kb
    · rw [if_pos hk] at hy2
      rcases List.mem_append.mp hy2 with h | h
      · exact Or.inl h
      · exact Or.inr (List.mem_singleton.mp h)
    · rw [if_neg hk] at hy2
      exact Or.inr (List.mem_singleton.mp hy2)

/-- Every row emitted by the inner-join flush loop pairs a remaining left
row with a buffered right row, through innerEmit. -/
theorem innerFlush_shape (keys ov : List String) (sa sb : String)
    (matched : List Row) :
    ∀ (restA : List Row) (a r : Row),
      r ∈ innerFlush keys ov sa sb matched a restA →
      ∃ x, x ∈ a :: restA ∧ ∃ y, y ∈ matched ∧ r = innerEmit ov sa sb x y := by
  intro restA
  induction restA with
  | nil =>
    intro a r hr
    unfold innerFlush at hr
    by_cases hmk : matchedKeyIs keys matched (rowKey keys a) = true
    · rw [if_pos hmk] at hr
      obtain ⟨y, hy, heq⟩ := List.mem_map.mp hr
      exact ⟨a, List.mem_cons_self a [], y, hy, heq.symm⟩
    · rw [if_neg hmk] at hr
      exact absurd hr (List.not_mem_nil r)
  | cons a2 restA2 ih =>
    intro a r hr
    unfold innerFlush at hr
    rcases List.mem_append.mp hr with h | h
    · by_cases hmk : matchedKeyIs keys matched (rowKey keys a) = true
      · rw [if_pos hmk] at h
        obtain ⟨y, hy, heq⟩ := List.mem_map.mp h
        exact ⟨a, List.mem_cons_self a _, y, hy, heq.symm⟩
      · rw [if_neg hmk] at h
        exact absurd h (List.not_mem_nil r)
    · obtain ⟨x, hx, y, hy, heq⟩ := ih a2 r h
      exact ⟨x, List.mem_cons_of_mem a hx, y, hy, heq⟩

/-- Unfolding the inner-join main loop when the left key is below. -/
theorem innerLoop_lt (keys ov : List String) (sa sb : String) (a b : Row)
    (restA restB matched : List Row)
    (h : listLtb (rowKey keys a) (rowKey keys b) = true) :
    innerLoop keys ov sa sb a restA b restB matched =
      (if matchedKeyIs keys matched (rowKey keys a) then
        matched.map (fun m => innerEmit ov sa sb a m) else []) ++
      (match restA with
        | [] => []
        | a2 :: restA2 => innerLoop keys ov sa sb a2 restA2 b restB matched) := by
  rw [innerLoop.eq_def]
  simp only [h, if_true]
  cases restA with
  | nil => simp
  | cons a2 restA2 => rfl

/-- Unfolding the inner-join main loop when the left key is not below. -/
theorem innerLoop_ge (keys ov : List String) (sa sb : String) (a b : Row)
    (restA restB matched : List Row)
    (h : ¬ listLtb (rowKey keys a) (rowKey keys b) = true) :
    innerLoop keys ov sa sb a restA b restB matched =
      (match restB with
        | [] => innerFlush keys ov sa sb
            (match matched with
              | [] => [b]
              | m :: _ => if rowKey keys m = rowKey keys b then matched ++ [b]
                  else [b]) a restA
        | b2 :: restB2 => innerLoop keys ov sa sb a restA b2 restB2
            (match matched with
              | [] => [b]
              | m :: _ => if rowKey keys m = rowKey keys b then matched ++ [b]
                  else [b])) := by
  rw [innerLoop.eq_def]
  simp only [h, if_false]
  rfl

/-- Every row emitted by the inner-join main loop is innerEmit applied to
a left row and either a buffered or a remaining right row, with the
renaming set fixed by the caller. -/
theorem innerLoop_shape (keys ov : List String) (sa sb : String) :
    ∀ (n : Nat) (restA restB : List Row) (a b : Row) (matched : List Row)
      (r : Row),
      restA.length + restB.length ≤ n →
      r ∈ innerLoop keys ov sa sb a restA b restB matched →
      ∃ x, x ∈ a :: restA ∧ ∃ y, (y ∈ matched ∨ y ∈ b :: restB) ∧
        r = innerEmit ov sa sb x y := by
  intro n
  induction n with
  | zero =>
    intro restA restB a b matched r hlen hr
    have hA : restA = [] := List.eq_nil_of_length_eq_zero (by omega)
    have hB : restB = [] := List.eq_nil_of_length_eq_zero (by omega)
    subst hA
    subst hB
    by_cases hlt : listLtb (rowKey keys a) (rowKey keys b) = true
    · rw [innerLoop_lt keys ov sa sb a b [] [] matched hlt] at hr
      simp only [List.append_nil] at hr
      by_cases hmk : matchedKeyIs keys matched (rowKey keys a) = true
      · rw [if_pos hmk] at hr
        obtain ⟨y, hy, heq⟩ := List.mem_map.mp hr
        exact ⟨a, List.mem_cons_self a _, y, Or.inl hy, heq.symm⟩
      · rw [if_neg hmk] at hr
        exact absurd hr (List.not_mem_nil r)
    · rw [innerLoop_ge keys ov sa sb a b [] [] matched hlt] at hr
      obtain ⟨x, hx, y, hy, heq⟩ := innerFlush_shape keys ov sa sb _ [] a r hr
      rcases innerMatched_grow keys (rowKey keys b) b matched y hy with h | h
      · exact ⟨x, hx, y, Or.inl h, heq⟩
      · exact ⟨x, hx, y, Or.inr (by simp [h]), heq⟩
  | succ n ih =>
    intro restA restB a b matched r hlen hr
    by_cases hlt : listLtb (rowKey keys a) (rowKey keys b) = true
    · rw [innerLoop_lt keys ov sa sb a b restA restB matched hlt] at hr
      rcases List.mem_append.mp hr with h | h
      · by_cases hmk : matchedKeyIs keys matched (rowKey keys a) = true
        · rw [if_pos hmk] at h
          obtain ⟨y, hy, heq⟩ := List.mem_map.mp h
          exact ⟨a, List.mem_cons_self a _, y, Or.inl hy, heq.symm⟩
        · rw [if_neg hmk] at h
          exact absurd h (List.not_mem_nil r)
      · cases restA with
        | nil => exact absurd h (List.not_mem_nil r)
        | cons a2 restA2 =>
          obtain ⟨x, hx, y, hy, heq⟩ := ih restA2 restB a2 b matched r
            (by simp at hlen ⊢; omega) h
          exact ⟨x, List.mem_cons_of_mem a hx, y, hy, heq⟩
    · rw [innerLoop_ge keys ov sa sb a b restA restB matched hlt] at hr
      cases restB with
      | nil =>
        obtain ⟨x, hx, y, hy, heq⟩ := innerFlush_shape keys ov sa sb _ restA a r hr
        rcases innerMatched_grow keys (rowKey keys b) b matched y hy with h | h
        · exact ⟨x, hx, y, Or.inl h, heq⟩
        · exact ⟨x, hx, y, Or.inr (by simp [h]), heq⟩
      | cons b2 restB2 =>
        obtain ⟨x, hx, y, hy, heq⟩ := ih restA restB2 a b2 _ r
          (by simp at hlen ⊢; omega) hr
        rcases hy with h | h
        · rcases innerMatched_grow keys (rowKey keys b) b matched y h with h2 | h2
          · exact ⟨x, hx, y, Or.inl h2, heq⟩
          · exact ⟨x, hx, y, Or.inr (by simp [h2]), heq⟩
        · exact ⟨x, hx, y, Or.inr (List.mem_cons_of_mem b h), heq⟩

/-- Every row emitted by the LeftJoiner loop is a bare left row or the
plain dict merge of a left row with a right row (never renamed). -/
theorem leftLoop_shape (keys : List String) :
    ∀ (restA : List Row) (a b : Row) (restB : List Row) (d : Bool) (r : Row),
      r ∈ leftLoop keys a restA b restB d →
      r ∈ a :: restA ∨
        ∃ x, x ∈ a :: restA ∧ ∃ y, y ∈ b :: restB ∧ r = Row.merge x y := by
  intro restA
  induction restA with
  | nil =>
    intro a b restB d r hr
    simp only [leftLoop] at hr
    by_cases hm : (drainMatches keys (rowKey keys a) b restB d []).1 = []
    · rw [if_pos hm] at hr
      exact Or.inl (by simpa using hr)
    · rw [if_neg hm] at hr
      obtain ⟨y, hy, heq⟩ := List.mem_map.mp hr
      rcases (drainMatches_spec keys (rowKey keys a) restB b d []).1 y hy with
        h | h
      · exact absurd h (List.not_mem_nil y)
      · exact Or.inr ⟨a, List.mem_cons_self a _, y, h.1, heq.symm⟩
  | cons a2 restA2 ih =>
    intro a b restB d r hr
    simp only [leftLoop] at hr
    have hspec := drainMatches_spec keys (rowKey keys a) restB b d []
    rcases List.mem_append.mp hr with h | h
    · by_cases hm : (drainMatches keys (rowKey keys a) b restB d []).1 = []
      · rw [if_pos hm] at h
        rw [List.mem_singleton] at h
        rw [h]
        exact Or.inl (List.mem_cons_self a _)
      · rw [if_neg hm] at h
        obtain ⟨y, hy, heq⟩ := List.mem_map.mp h
        rcases hspec.1 y hy with h2 | h2
        · exact absurd h2 (List.not_mem_nil y)
        · exact Or.inr ⟨a, List.mem_cons_self a _, y, h2.1, heq.symm⟩
    · rcases ih a2 _ _ _ r h with h2 | h2
      · exact Or.inl (List.mem_cons_of_mem a h2)
      · obtain ⟨x, hx, y, hy, heq⟩ := h2
        refine Or.inr ⟨x, List.mem_cons_of_mem a hx, y, ?_, heq⟩
        rcases List.mem_cons.mp hy with h3 | h3
        · rw [h3]
          exact hspec.2.1
        · exact hspec.2.2 y h3

/-- Every row emitted by the RightJoiner loop is a bare right row or the
plain dict merge of a buffered left row with a right row. -/
theorem rightLoop_shape (keys : List String) :
    ∀ (restB : List Row) (b a : Row) (restA : List Row) (d : Bool) (r : Row),
      r ∈ rightLoop keys b restB a restA d →
      r ∈ b :: restB ∨
        ∃ x, x ∈ a :: restA ∧ ∃ y, y ∈ b :: restB ∧ r = Row.merge x y := by
  intro restB
  induction restB with
  | nil =>
    intro b a restA d r hr
    simp only [rightLoop] at hr
    by_cases hm : (drainMatches keys (rowKey keys b) a restA d []).1 = []
    · rw [if_pos hm] at hr
      exact Or.inl (by simpa using hr)
    · rw [if_neg hm] at hr
      obtain ⟨y, hy, heq⟩ := List.mem_map.mp hr
      rcases (drainMatches_spec keys (rowKey keys b) restA a d []).1 y hy with
        h | h
      · exact absurd h (List.not_mem_nil y)
      · exact Or.inr ⟨y, h.1, b, List.mem_cons_self b _, heq.symm⟩
  | cons b2 restB2 ih =>
    intro b a restA d r hr
    simp only [rightLoop] at hr
    have hspec := drainMatches_spec keys (rowKey keys b) restA a d []
    rcases List.mem_append.mp hr with h | h
    · by_cases hm : (drainMatches keys (rowKey keys b) a restA d []).1 = []
      · rw [if_pos hm] at h
        rw [List.mem_singleton] at h
        rw [h]
        exact Or.inl (List.mem_cons_self b _)
      · rw [if_neg hm] at h
        obtain ⟨y, hy, heq⟩ := List.mem_map.mp h
        rcases hspec.1 y hy with h2 | h2
        · exact absurd h2 (List.not_mem_nil y)
        · exact Or.inr ⟨y, h2.1, b, List.mem_cons_self b _, heq.symm⟩
    · rcases ih b2 _ _ _ r h with h2 | h2
      · exact Or.inl (List.mem_cons_of_mem b h2)
      · obtain ⟨x, hx, y, hy, heq⟩ := h2
        refine Or.inr ⟨x, ?_, y, List.mem_cons_of_mem b hy, heq⟩
        rcases List.mem_cons.mp hx with h3 | h3
        · rw [h3]
          exact hspec.2.1
        · exact hspec.2.2 x h3

/-! ## Split lemmas -/

theorem splitKeep_ne_nil (cs : List Char) : splitKeep cs ≠ [] := by
  cases cs with
  | nil => simp [splitKeep]
  | cons c rest =>
    simp only [splitKeep]
    by_cases h : isWsChar c = true
    · simp [h]
    · simp only [h]
      cases splitKeep rest <;> simp

theorem splitKeep_nonws (cs : List Char)
    (h : ∀ x ∈ cs, isWsChar x = false) : splitKeep cs = [cs] := by
  induction cs with
  | nil => rfl
  | cons c rest ih =>
    have hc : isWsChar c = false := h c (List.mem_cons_self c rest)
    have hrest := ih (fun x hx => h x (List.mem_cons_of_mem c hx))
    simp [splitKeep, hc, hrest]

theorem splitKeep_append_ws (c : Char) (rest : List Char) (hc : isWsChar c = true) :
    ∀ pre : List Char, (∀ x ∈ pre, isWsChar x = false) →
      splitKeep (pre ++ c :: rest) = pre :: splitKeep rest := by
  intro pre
  induction pre with
  | nil => intro _; simp [splitKeep, hc]
  | cons p pre' ih =>
    intro hpre
    have hp : isWsChar p = false := hpre p (List.mem_cons_self p pre')
    have hrec := ih (fun x hx => hpre x (List.mem_cons_of_mem p hx))
    simp [splitKeep, hp, hrec]

theorem splitKeep_mem_nonws (cs : List Char) :
    ∀ t ∈ splitKeep cs, ∀ x ∈ t, isWsChar x = false := by
  induction cs with
  | nil =>
    intro t ht
    simp [splitKeep] at ht
    simp [ht]
  | cons c rest ih =>
    intro t ht
    simp only [splitKeep] at ht
    by_cases hc : isWsChar c = true
    · simp only [hc, if_true] at ht
      rcases List.mem_cons.mp ht with h | h
      · simp [h]
      · exact ih t h
    · simp only [hc] at ht
      rcases hk : splitKeep rest with _ | ⟨t0, ts⟩
      · exact absurd hk (splitKeep_ne_nil rest)
      · rw [hk] at ht
        simp only [Bool.false_eq_true, if_false] at ht
        rcases List.mem_cons.mp ht with h | h
        · subst h
          intro x hx
          rcases List.mem_cons.mp hx with hx | hx
          · subst hx
            exact eq_false_of_ne_true hc
          · exact ih t0 (by rw [hk]; exact List.mem_cons_self t0 ts) x hx
        · exact ih t (by rw [hk]; exact List.mem_cons_of_mem t0 h)

theorem dropWhile_eq_self_of_all {p : Char → Bool} (l : List Char)
    (h : ∀ x ∈ l, p x = false) : l.dropWhile p = l := by
  cases l with
  | nil => rfl
  | cons c rest =>
    have hc := h c (List.mem_cons_self c rest)
    simp [List.dropWhile_cons, hc]

theorem trimWs_of_nonws (t : List Char)
    (h : ∀ x ∈ t, isWsChar x = false) : trimWs t = t := by
  unfold trimWs
  rw [dropWhile_eq_self_of_all t h]
  rw [dropWhile_eq_self_of_all t.reverse (fun x hx => h x (List.mem_reverse.mp hx))]
  exact List.reverse_reverse t

theorem dropTailEmpty_cons (x : List Char) (l : List (List Char)) (h : l ≠ []) :
    dropTailEmpty (x :: l) = x :: dropTailEmpty l := by
  cases l with
  | nil => exact absurd rfl h
  | cons y l' =>
    unfold dropTailEmpty
    rw [List.getLast?_cons_cons]
    by_cases hl : (y :: l').getLast? = some []
    · simp [hl]
    · simp [hl]

theorem dropHeadEmpty_cons_ne (t : List Char) (ts : List (List Char))
    (h : t ≠ []) : dropHeadEmpty (t :: ts) = t :: ts := by
  cases t with
  | nil => exact absurd rfl h
  | cons c t' => rfl

theorem wsSpansFrom_nonws (cs : List Char)
    (h : ∀ x ∈ cs, isWsChar x = false) : ∀ i, wsSpansFrom cs i = [] := by
  induction cs with
  | nil => intro i; rfl
  | cons c rest ih =>
    intro i
    have hc := h c (List.mem_cons_self c rest)
    simp [wsSpansFrom, hc, ih (fun x hx => h x (List.mem_cons_of_mem c hx))]

theorem wsSpansFrom_append (c : Char) (rest : List Char)
    (hc : isWsChar c = true) :
    ∀ (pre : List Char) (i : Nat), (∀ x ∈ pre, isWsChar x = false) →
      wsSpansFrom (pre ++ c :: rest) i =
        (i + pre.length, i + pre.length + 1) ::
          wsSpansFrom rest (i + pre.length + 1) := by
  intro pre
  induction pre with
  | nil => intro i _; simp [wsSpansFrom, hc]
  | cons p pre' ih =>
    intro i hpre
    have hp : isWsChar p = false := hpre p (List.mem_cons_self p pre')
    have hrec := ih (i + 1) (fun x hx => hpre x (List.mem_cons_of_mem p hx))
    simp only [List.cons_append, wsSpansFrom, hp, Bool.false_eq_true, if_false,
      List.nil_append, hrec]
    have h1 : i + 1 + pre'.length = i + (p :: pre').length := by
      simp [List.length_cons]
      omega
    rw [← h1]
    exact hrec

theorem dropWhile_head_false (p : Char → Bool) :
    ∀ (l : List Char) (c : Char) (rest : List Char),
      l.dropWhile p = c :: rest → p c = false := by
  intro l
  induction l with
  | nil =>
    intro c rest h
    simp [List.dropWhile] at h
  | cons x xs ih =>
    intro c rest h
    by_cases hx : p x = true
    · rw [List.dropWhile_cons_of_pos hx] at h
      exact ih c rest h
    · rw [List.dropWhile_cons_of_neg hx] at h
      cases h
      exact eq_false_of_ne_true hx

theorem strSlice_drop (cs : List Char) (k : Nat) :
    strSlice cs k cs.length = cs.drop k := by
  unfold strSlice
  rw [← List.length_drop k cs]
  exact List.take_length _

/-- The split loop on a whitespace-free suffix. -/
theorem splitLoop_nonws (cs : List Char) (k : Nat)
    (hws : ∀ x ∈ cs.drop k, isWsChar x = false) :
    splitLoop cs k (wsSpansFrom (cs.drop k) k) =
      dropTailEmpty (splitKeep (cs.drop k)) := by
  rw [wsSpansFrom_nonws (cs.drop k) hws k]
  rw [splitKeep_nonws (cs.drop k) hws]
  simp only [splitLoop]
  by_cases hlt : k < cs.length
  · have hne : cs.drop k ≠ [] := by
      intro h
      rw [List.drop_eq_nil_iff] at h
      omega
    rw [if_pos hlt, strSlice_drop, trimWs_of_nonws (cs.drop k) hws]
    unfold dropTailEmpty
    simp [hne]
  · have hnil : cs.drop k = [] := by
      rw [List.drop_eq_nil_iff]
      omega
    rw [if_neg hlt, hnil]
    rfl

/-- The split loop, started at a positive offset, yields the pieces cut
at each whitespace character of the suffix, minus an empty trailing
piece.  Positive offsets make the position-0 guard always true. -/
theorem splitLoop_from (cs : List Char) :
    ∀ n k, k ≠ 0 → cs.length - k ≤ n →
      splitLoop cs k (wsSpansFrom (cs.drop k) k) =
        dropTailEmpty (splitKeep (cs.drop k)) := by
  intro n
  induction n with
  | zero =>
    intro k hk hle
    refine splitLoop_nonws cs k ?_
    have : cs.drop k = [] := by
      rw [List.drop_eq_nil_iff]
      omega
    rw [this]
    intro x hx
    exact absurd hx (List.not_mem_nil x)
  | succ n ih =>
    intro k hk hle
    by_cases hws : ∀ x ∈ cs.drop k, isWsChar x = false
    · exact splitLoop_nonws cs k hws
    · -- the suffix contains a whitespace character: cut at the first one
      set suf := cs.drop k with hsuf
      set pre := suf.takeWhile (fun x => !isWsChar x) with hpre
      have hdecomp : pre ++ suf.dropWhile (fun x => !isWsChar x) = suf :=
        List.takeWhile_append_dropWhile (fun x => !isWsChar x) suf
      have hdropne : suf.dropWhile (fun x => !isWsChar x) ≠ [] := by
        intro h
        rw [h, List.append_nil] at hdecomp
        refine hws ?_
        intro x hx
        have : x ∈ pre := by rw [hdecomp]; exact hx
        have := List.mem_takeWhile_imp this
        simpa using this
      rcases hd : suf.dropWhile (fun x => !isWsChar x) with _ | ⟨c, rest⟩
      · exact absurd hd hdropne
      · have hc : isWsChar c = true := by
          have := dropWhile_head_false (fun x => !isWsChar x) suf c rest hd
          simpa using this
        have hprews : ∀ x ∈ pre, isWsChar x = false := by
          intro x hx
          have := List.mem_takeWhile_imp hx
          simpa using this
        have hsufdec : suf = pre ++ c :: rest := by
          rw [← hdecomp, hd]
        -- absolute position of the first whitespace character
        have hspans : wsSpansFrom suf k =
            (k + pre.length, k + pre.length + 1) ::
              wsSpansFrom rest (k + pre.length + 1) := by
          rw [hsufdec]
          exact wsSpansFrom_append c rest hc pre k hprews
        have hkpos : k + pre.length ≠ 0 := by omega
        have hk2 : k ≤ cs.length := by
          by_contra hgt
          have hsnil : suf = [] := by
            rw [hsuf, List.drop_eq_nil_iff]
            omega
          rw [hsnil] at hd
          exact absurd hd (by simp [List.dropWhile])
        have hlen : cs.length = k + suf.length := by
          have hld := List.length_drop k cs
          rw [← hsuf] at hld
          omega
        -- the rest of the suffix is the drop at the next offset
        have hdroprest : cs.drop (k + pre.length + 1) = rest := by
          have h1 : cs.drop (k + pre.length + 1) =
              (cs.drop k).drop (pre.length + 1) := by
            rw [List.drop_drop]
            have harith : k + pre.length + 1 = k + (pre.length + 1) := by omega
            rw [harith]
          rw [h1, ← hsuf, hsufdec]
          have h2 : pre ++ c :: rest = (pre ++ [c]) ++ rest := by
            simp
          rw [h2]
          have h3 : pre.length + 1 = (pre ++ [c]).length := by
            simp
          rw [h3]
          exact List.drop_left _ _
        have hslice : strSlice cs k (k + pre.length) = pre := by
          unfold strSlice
          have h1 : k + pre.length - k = pre.length := by omega
          rw [h1, ← hsuf, hsufdec]
          have := List.take_left pre (c :: rest)
          exact this
        have hrec := ih (k + pre.length + 1) (by omega)
          (by
            have : suf.length = pre.length + 1 + rest.length := by
              rw [hsufdec]
              simp
              omega
            omega)
        rw [hdroprest] at hrec
        -- unfold one step of the loop
        rw [hspans]
        simp only [splitLoop]
        rw [if_pos hkpos, hslice, trimWs_of_nonws pre hprews, hrec]
        rw [hsufdec, splitKeep_append_ws c rest hc pre hprews]
        rw [dropTailEmpty_cons pre (splitKeep rest) (splitKeep_ne_nil rest)]
        rfl

/-- The split loop as Split calls it (offset 0): the pieces cut at each
whitespace character, minus a leading empty piece and an empty trailing
piece — that is, splitTokens. -/
theorem splitLoop_zero (cs : List Char) :
    splitLoop cs 0 (wsSpans cs) = splitTokens cs := by
  unfold wsSpans splitTokens
  by_cases hws : ∀ x ∈ cs, isWsChar x = false
  · have h0 : cs.drop 0 = cs := List.drop_zero cs
    have := splitLoop_nonws cs 0 (by rw [h0]; exact hws)
    rw [h0] at this
    rw [this, splitKeep_nonws cs hws]
    cases hcs : cs with
    | nil => rfl
    | cons c cs' =>
      rw [dropHeadEmpty_cons_ne (c :: cs') [] (by simp)]
  · set pre := cs.takeWhile (fun x => !isWsChar x) with hpre
    have hdecomp : pre ++ cs.dropWhile (fun x => !isWsChar x) = cs :=
      List.takeWhile_append_dropWhile (fun x => !isWsChar x) cs
    have hdropne : cs.dropWhile (fun x => !isWsChar x) ≠ [] := by
      intro h
      rw [h, List.append_nil] at hdecomp
      refine hws ?_
      intro x hx
      have : x ∈ pre := by rw [hdecomp]; exact hx
      have := List.mem_takeWhile_imp this
      simpa using this
    rcases hd : cs.dropWhile (fun x => !isWsChar x) with _ | ⟨c, rest⟩
    · exact absurd hd hdropne
    · have hc : isWsChar c = true := by
        have := dropWhile_head_false (fun x => !isWsChar x) cs c rest hd
        simpa using this
      have hprews : ∀ x ∈ pre, isWsChar x = false := by
        intro x hx
        have := List.mem_takeWhile_imp hx
        simpa using this
      have hcsdec : cs = pre ++ c :: rest := by
        rw [← hdecomp, hd]
      have hspans : wsSpansFrom cs 0 =
          (pre.length, pre.length + 1) :: wsSpansFrom rest (pre.length + 1) := by
        conv => lhs; rw [hcsdec]
        have := wsSpansFrom_append c rest hc pre 0 hprews
        simpa using this
      have hdroprest : cs.drop (pre.length + 1) = rest := by
        rw [hcsdec]
        have h2 : pre ++ c :: rest = (pre ++ [c]) ++ rest := by simp
        rw [h2]
        have h3 : pre.length + 1 = (pre ++ [c]).length := by simp
        rw [h3]
        exact List.drop_left _ _
      have hrec := splitLoop_from cs (cs.length - (pre.length + 1))
        (pre.length + 1) (by omega) (le_refl _)
      rw [hdroprest] at hrec
      rw [hspans]
      simp only [splitLoop]
      rw [hrec]
      have hsk : splitKeep cs = pre :: splitKeep rest := by
        rw [hcsdec]
        exact splitKeep_append_ws c rest hc pre hprews
      rw [hsk]
      by_cases hpe : pre = []
      · rw [if_neg (by simp [hpe])]
        rw [hpe]
        rfl
      · have hlenpos : pre.length ≠ 0 := by
          intro h
          exact hpe (List.eq_nil_of_length_eq_zero h)
        rw [if_pos hlenpos]
        have hslice : strSlice cs 0 pre.length = pre := by
          unfold strSlice
          rw [List.drop_zero, Nat.sub_zero]
          conv => lhs; rw [hcsdec]
          exact List.take_left _ _
        rw [hslice, trimWs_of_nonws pre hprews]
        rw [dropHeadEmpty_cons_ne pre (splitKeep rest) hpe]
        rw [dropTailEmpty_cons pre (splitKeep rest) (splitKeep_ne_nil rest)]
        rfl

/-! ## Sort lemmas -/

/-- Non-decreasing adjacency used for sortedness: the key of the first
row is not above the key of the second. -/
def KeyLe (keys : List String) (x y : Row) : Prop :=
  listLtb (rowKey keys y) (rowKey keys x) = false

theorem insertSorted_perm (keys : List String) (r : Row) :
    ∀ l : List Row, (insertSorted keys r l).Perm (r :: l) := by
  intro l
  induction l with
  | nil => exact List.Perm.refl _
  | cons x xs ih =>
    simp only [insertSorted]
    by_cases h : listLtb (rowKey keys x) (rowKey keys r) = true
    · simp only [h, if_true]
      exact (ih.cons x).trans (List.Perm.swap r x xs)
    · simp [h]

theorem insertSorted_chain (keys : List String) (r : Row) :
    ∀ l : List Row, List.Chain' (KeyLe keys) l →
      List.Chain' (KeyLe keys) (insertSorted keys r l) := by
  intro l
  induction l with
  | nil => intro _; simp [insertSorted]
  | cons x xs ih =>
    intro hch
    simp only [insertSorted]
    by_cases h : listLtb (rowKey keys x) (rowKey keys r) = true
    · simp only [h, if_true]
      have hxs : List.Chain' (KeyLe keys) xs := hch.tail
      have htail := ih hxs
      cases xs with
      | nil =>
        simp only [insertSorted]
        exact List.chain'_pair.mpr (listLtb_asymm _ _ h)
      | cons x' xs' =>
        simp only [insertSorted] at htail ⊢
        by_cases h' : listLtb (rowKey keys x') (rowKey keys r) = true
        · simp only [h', if_true] at htail ⊢
          exact List.Chain'.cons ((List.chain'_cons.mp hch).1) htail
        · simp only [h', if_false] at htail ⊢
          exact List.Chain'.cons (listLtb_asymm _ _ h) htail
    · simp only [h, if_false]
      refine List.Chain'.cons ?_ hch
      exact eq_false_of_ne_true h

theorem insertSorted_filter_of_eq (keys : List String) (r : Row) (v : List V)
    (hr : rowKey keys r = v) :
    ∀ l : List Row,
      (insertSorted keys r l).filter (fun x => decide (rowKey keys x = v)) =
        r :: l.filter (fun x => decide (rowKey keys x = v)) := by
  subst hr
  intro l
  induction l with
  | nil => simp [insertSorted]
  | cons x xs ih =>
    simp only [insertSorted]
    by_cases h : listLtb (rowKey keys x) (rowKey keys r) = true
    · have hx : rowKey keys x ≠ rowKey keys r := by
        intro hxv
        rw [hxv, listLtb_irrefl] at h
        exact Bool.false_ne_true h
      simp only [h, if_true, List.filter_cons]
      simp [hx, ih]
    · simp [h, List.filter_cons]

theorem insertSorted_filter_of_ne (keys : List String) (r : Row) (v : List V)
    (hr : rowKey keys r ≠ v) :
    ∀ l : List Row,
      (insertSorted keys r l).filter (fun x => decide (rowKey keys x = v)) =
        l.filter (fun x => decide (rowKey keys x = v)) := by
  intro l
  induction l with
  | nil => simp [insertSorted, hr]
  | cons x xs ih =>
    simp only [insertSorted]
    by_cases h : listLtb (rowKey keys x) (rowKey keys r) = true
    · simp only [h, if_true, List.filter_cons]
      by_cases hx : rowKey keys x = v <;> simp [hx, ih]
    · simp [h, List.filter_cons, hr]

/-! ## Claim theorems -/

/-- C1: the claim says every joiner emits the full Cartesian product
within each equal-key block.  The code does not: on left stream
[(k 1, a1), (k 1, a2)] and right stream [(k 1, x), (k 1, y), (k 2, z)],
LeftJoiner clears its matched buffer after the first left row, so the
second left row of the k=1 block is emitted bare instead of being crossed
with x and y (3 rows instead of the required 4); OuterJoiner keeps only
the last row per key on each side, emitting one row for the k=1 block
instead of the four-row Cartesian product.  This theorem evaluates both
joiners at that failing input. -/
theorem c1_left_outer_no_cartesian :
    leftJoin ["k"]
        [[("k", V.i 1), ("v", V.s "a1")], [("k", V.i 1), ("v", V.s "a2")]]
        [[("k", V.i 1), ("v", V.s "x")], [("k", V.i 1), ("v", V.s "y")],
          [("k", V.i 2), ("v", V.s "z")]] =
      [[("k", V.i 1), ("v", V.s "x")], [("k", V.i 1), ("v", V.s "y")],
        [("k", V.i 1), ("v", V.s "a2")]] ∧
    outerJoin ["k"]
        [[("k", V.i 1), ("v", V.s "a1")], [("k", V.i 1), ("v", V.s "a2")]]
        [[("k", V.i 1), ("v", V.s "x")], [("k", V.i 1), ("v", V.s "y")],
          [("k", V.i 2), ("v", V.s "z")]] =
      [[("k", V.i 1), ("v", V.s "a2")], [("k", V.i 2), ("v", V.s "z")]] := by
  constructor
  · decide
  · decide

/-- C2: the claim says every joiner renames colliding non-key columns
with the configured suffixes.  Only InnerJoiner does; LeftJoiner,
RightJoiner and OuterJoiner compute or ignore the overlap set and merge
the raw dicts, so the shared column v is never renamed: the left join
keeps the right value, the right join keeps the right (driving) value,
and the outer join keeps the left value.  This theorem evaluates all
three at a one-row-per-side input with colliding column v. -/
theorem c2_no_suffix_renaming :
    leftJoin ["k"] [[("k", V.i 1), ("v", V.s "a")]]
        [[("k", V.i 1), ("v", V.s "x")]] =
      [[("k", V.i 1), ("v", V.s "x")]] ∧
    rightJoin ["k"] [[("k", V.i 1), ("v", V.s "a")]]
        [[("k", V.i 1), ("v", V.s "x")]] =
      [[("k", V.i 1), ("v", V.s "x")]] ∧
    outerJoin ["k"] [[("k", V.i 1), ("v", V.s "a")]]
        [[("k", V.i 1), ("v", V.s "x")]] =
      [[("k", V.i 1), ("v", V.s "a")]] := by
  refine ⟨by decide, by decide, by decide⟩

/-- C3: the claim says a left join with an empty right input emits every
left row (right columns absent), and a right join with an empty left
input emits every right row; the code instead returns immediately when
the first next() on either iterator fails, emitting nothing, and the
outer join collapses duplicate-key rows instead of emitting the union. -/
theorem c3_empty_side_drops_rows :
    leftJoin ["k"] [[("k", V.i 1), ("v", V.s "a")]] [] = [] ∧
    rightJoin ["k"] [] [[("k", V.i 1), ("v", V.s "x")]] = [] ∧
    outerJoin ["k"]
        [[("k", V.i 1), ("v", V.s "a1")], [("k", V.i 1), ("v", V.s "a2")]] [] =
      [[("k", V.i 1), ("v", V.s "a2")]] := by
  refine ⟨by decide, by decide, by decide⟩

/-- C4: the stream produced by .sort(keys) — modelled from the spec, the
external sort source file being absent — is a permutation of the input,
its adjacent rows are non-decreasing in the lexicographic order of the
key tuple, and it is stable: for every key tuple value, the subsequence
of rows with that key is exactly the input subsequence, in order. -/
theorem c4_sort_stable_permutation (keys : List String) (rows : List Row) :
    (sortRows keys rows).Perm rows ∧
    List.Chain' (KeyLe keys) (sortRows keys rows) ∧
    ∀ v : List V,
      (sortRows keys rows).filter (fun r => decide (rowKey keys r = v)) =
        rows.filter (fun r => decide (rowKey keys r = v)) := by
  refine ⟨?_, ?_, ?_⟩
  · induction rows with
    | nil => simp [sortRows]
    | cons r rest ih =>
      exact (insertSorted_perm keys r (sortRows keys rest)).trans (ih.cons r)
  · induction rows with
    | nil => simp [sortRows]
    | cons r rest ih =>
      exact insertSorted_chain keys r (sortRows keys rest) ih
  · intro v
    induction rows with
    | nil => simp [sortRows]
    | cons r rest ih =>
      show (insertSorted keys r (sortRows keys rest)).filter _ = _
      by_cases hr : rowKey keys r = v
      · rw [insertSorted_filter_of_eq keys r v hr, ih, List.filter_cons]
        simp [hr]
      · rw [insertSorted_filter_of_ne keys r v hr, ih, List.filter_cons]
        simp [hr]

/-- One unfolding step of groupRuns on a nonempty stream. -/
theorem groupRuns_cons {K : Type} [DecidableEq K] (f : Row → K) (r : Row)
    (rs : List Row) :
    groupRuns f (r :: rs) =
      match groupRuns f rs with
      | [] => [(f r, [r])]
      | (k, g) :: rest =>
        if f r = k then (f r, r :: g) :: rest
        else (f r, [r]) :: (k, g) :: rest := rfl

/-- Prepending one maximal run to a stream prepends one group to the
groupby output, provided the run key differs from the first key of the
remaining groups. -/
theorem groupRuns_append_group {K : Type} [DecidableEq K] (f : Row → K)
    (k : K) (t : List Row)
    (hhead : ∀ p ∈ (groupRuns f t).head?, p.1 ≠ k) :
    ∀ g : List Row, g ≠ [] → (∀ r ∈ g, f r = k) →
      groupRuns f (g ++ t) = (k, g) :: groupRuns f t := by
  intro g
  induction g with
  | nil => intro hne _; exact absurd rfl hne
  | cons r g' ih =>
    intro _ hall
    have hr : f r = k := hall r (List.mem_cons_self r g')
    cases hg' : g' with
    | nil =>
      simp only [List.cons_append, List.nil_append, groupRuns]
      cases ht : groupRuns f t with
      | nil => simp [ht, hr]
      | cons p rest =>
        have hp : p.1 ≠ k := by
          refine hhead p ?_
          simp [ht]
        have hkp : ¬ k = p.1 := fun hk => hp hk.symm
        simp [ht, hr, hkp]
    | cons r2 g'' =>
      have hall' : ∀ x ∈ g', f x = k :=
        fun x hx => hall x (List.mem_cons_of_mem r hx)
      have hrec := ih (by simp [hg']) hall'
      have hrec' : groupRuns f (r2 :: (g'' ++ t)) =
          (k, r2 :: g'') :: groupRuns f t := by
        rw [hg'] at hrec
        simpa using hrec
      simp only [List.cons_append]
      rw [groupRuns_cons, hrec']
      simp [hr, hg']

/-- itertools.groupby recovers a decomposition of the stream into
nonempty constant-key runs with distinct adjacent keys. -/
theorem groupRuns_flatten {K : Type} [DecidableEq K] (f : Row → K)
    (gs : List (K × List Row))
    (hne : ∀ kg ∈ gs, kg.2 ≠ [] ∧ ∀ r ∈ kg.2, f r = kg.1)
    (hadj : List.Chain' (fun a b => a.1 ≠ b.1) gs) :
    groupRuns f ((gs.map Prod.snd).flatten) = gs := by
  induction gs with
  | nil => simp [groupRuns]
  | cons kg rest ih =>
    have hrec : groupRuns f ((rest.map Prod.snd).flatten) = rest :=
      ih (fun x hx => hne x (List.mem_cons_of_mem kg hx)) hadj.tail
    have hkg := hne kg (List.mem_cons_self kg rest)
    have hhead : ∀ p ∈ (groupRuns f ((rest.map Prod.snd).flatten)).head?,
        p.1 ≠ kg.1 := by
      rw [hrec]
      cases rest with
      | nil => simp
      | cons kg2 rest2 =>
        intro p hp
        simp only [List.head?_cons, Option.mem_def, Option.some.injEq] at hp
        subst hp
        exact ((List.chain'_cons.mp hadj).1).symm
    have := groupRuns_append_group f kg.1 ((rest.map Prod.snd).flatten) hhead
      kg.2 hkg.1 hkg.2
    simpa [hrec] using this

/-- C6: decompose the input stream into its maximal contiguous equal-key
groups (nonempty runs of constant .get-key with distinct adjacent keys);
Count(col) emits, per group, exactly one row consisting of the group-key
columns plus col holding the group size when every key value of the group
is truthy, and nothing for the group when any key value is null, missing
(both read back as null) or otherwise falsy. -/
theorem c6_count_truthy_groups (col : String) (groupKey : List String)
    (gs : List (List V × List Row))
    (hne : ∀ kg ∈ gs, kg.2 ≠ [] ∧ ∀ r ∈ kg.2, countKey groupKey r = kg.1)
    (hadj : List.Chain' (fun a b => a.1 ≠ b.1) gs) :
    countCall col groupKey ((gs.map Prod.snd).flatten) =
      gs.filterMap (fun kg =>
        if kg.1.all V.truthy then
          some (countEmit groupKey col kg.1 kg.2.length)
        else none) := by
  unfold countCall
  rw [groupRuns_flatten (countKey groupKey) gs hne hadj]

/-- Witness for C6 on a stream with three groups over key column a:
values 1 (two rows, emitted with count 2), 0 (falsy, suppressed) and
"x" (one row, emitted with count 1). -/
theorem c6_count_truthy_groups_witness :
    ((∀ kg ∈ ([([V.i 1], [[("a", V.i 1), ("b", V.i 5)], [("a", V.i 1)]]),
          ([V.i 0], [[("a", V.i 0)]]),
          ([V.s "x"], [[("a", V.s "x")]])] :
            List (List V × List Row)),
        kg.2 ≠ [] ∧ ∀ r ∈ kg.2, countKey ["a"] r = kg.1) ∧
      List.Chain' (fun a b => a.1 ≠ b.1)
        ([([V.i 1], [[("a", V.i 1), ("b", V.i 5)], [("a", V.i 1)]]),
          ([V.i 0], [[("a", V.i 0)]]),
          ([V.s "x"], [[("a", V.s "x")]])] :
            List (List V × List Row))) ∧
    countCall "d" ["a"]
        ((([([V.i 1], [[("a", V.i 1), ("b", V.i 5)], [("a", V.i 1)]]),
            ([V.i 0], [[("a", V.i 0)]]),
            ([V.s "x"], [[("a", V.s "x")]])] :
              List (List V × List Row)).map Prod.snd).flatten) =
      ([([V.i 1], [[("a", V.i 1), ("b", V.i 5)], [("a", V.i 1)]]),
        ([V.i 0], [[("a", V.i 0)]]),
        ([V.s "x"], [[("a", V.s "x")]])] :
          List (List V × List Row)).filterMap (fun kg =>
        if kg.1.all V.truthy then
          some (countEmit ["a"] "d" kg.1 kg.2.length)
        else none) :=
  ⟨⟨by decide,
      List.Chain'.cons (by decide) (List.Chain'.cons (by decide)
        (List.chain'_singleton _))⟩,
    c6_count_truthy_groups "d" ["a"]
      [([V.i 1], [[("a", V.i 1), ("b", V.i 5)], [("a", V.i 1)]]),
        ([V.i 0], [[("a", V.i 0)]]),
        ([V.s "x"], [[("a", V.s "x")]])]
      (by decide)
      (List.Chain'.cons (by decide) (List.Chain'.cons (by decide)
        (List.chain'_singleton _)))⟩

/-- C5 counterexample: the claim says Split yields one row per non-empty
token.  Splitting "a  b" (two blanks) by the default whitespace separator
has two non-empty tokens, but the code emits the empty slice between the
two adjacent separator matches as well: three rows, the middle one with
the empty string. -/
theorem c5_counterexample :
    splitCall "text" [("text", V.s "a  b")] =
      [[("text", V.s "a")], [("text", V.s "")], [("text", V.s "b")]] ∧
    (splitCall "text" [("text", V.s "a  b")]).length = 3 := by
  refine ⟨by decide, by decide⟩

theorem mem_dropTailEmpty (t : List Char) (l : List (List Char))
    (h : t ∈ dropTailEmpty l) : t ∈ l := by
  unfold dropTailEmpty at h
  by_cases hc : l.getLast? = some []
  · rw [if_pos hc] at h
    exact List.mem_of_mem_dropLast h
  · rwa [if_neg hc] at h

theorem mem_dropHeadEmpty (t : List Char) (l : List (List Char))
    (h : t ∈ dropHeadEmpty l) : t ∈ l := by
  cases l with
  | nil => exact h
  | cons x ts =>
    cases x with
    | nil => exact List.mem_cons_of_mem [] h
    | cons c x' => exact h

/-- C5 amended: for a row whose column holds a string, Split with the
default whitespace separator yields one row per token, the tokens being
the pieces of the string cut at every whitespace character — interior
empty pieces between adjacent separators included — minus one leading
empty piece (the guard on a match at position 0) and an empty trailing
piece; each emitted row carries the whitespace-trimmed token.  A row
without the column passes through unchanged. -/
theorem c5_split_amended (col : String) (row rowM : Row) (str : String)
    (hcol : Row.get row col = some (V.s str))
    (hmiss : Row.get rowM col = none) :
    splitCall col row =
      (splitTokens str.data).map
        (fun tok => Row.set row col (V.s (String.mk (trimWs tok)))) ∧
    splitCall col rowM = [rowM] := by
  constructor
  · unfold splitCall
    rw [hcol]
    show (splitLoop str.data 0 (wsSpans str.data)).map
        (fun tok => Row.set row col (V.s (String.mk tok))) = _
    rw [splitLoop_zero str.data]
    refine List.map_congr_left ?_
    intro t ht
    have hmem : t ∈ splitKeep str.data :=
      mem_dropHeadEmpty t _ (mem_dropTailEmpty t _ ht)
    rw [trimWs_of_nonws t (splitKeep_mem_nonws str.data t hmem)]
  · unfold splitCall
    rw [hmiss]

/-- Witness for C5 amended on the row \x7bt: "a  b"\x7d (interior empty
token kept and trimmed) and a row without the column. -/
theorem c5_split_amended_witness :
    (Row.get [("t", V.s "a  b")] "t" = some (V.s "a  b") ∧
      Row.get [("u", V.i 1)] "t" = none) ∧
    (splitCall "t" [("t", V.s "a  b")] =
      (splitTokens "a  b".data).map
        (fun tok =>
          Row.set [("t", V.s "a  b")] "t" (V.s (String.mk (trimWs tok)))) ∧
    splitCall "t" [("u", V.i 1)] = [[("u", V.i 1)]]) :=
  ⟨⟨by decide, by decide⟩,
    c5_split_amended "t" [("t", V.s "a  b")] [("u", V.i 1)] "a  b"
      (by decide) (by decide)⟩

/-- C7 counterexample: with the colliding non-key column v, left_join(A, B)
emits v from B while right_join(B, A) emits v from A, and neither applies
any suffix, so the two outputs differ as multisets of rows (each is a
single row and the rows disagree on column v). -/
theorem c7_counterexample :
    leftJoin ["k"] [[("k", V.i 1), ("v", V.s "a")]]
        [[("k", V.i 1), ("v", V.s "x")]] =
      [[("k", V.i 1), ("v", V.s "x")]] ∧
    rightJoin ["k"] [[("k", V.i 1), ("v", V.s "x")]]
        [[("k", V.i 1), ("v", V.s "a")]] =
      [[("k", V.i 1), ("v", V.s "a")]] ∧
    ¬ Row.Equiv [("k", V.i 1), ("v", V.s "x")] [("k", V.i 1), ("v", V.s "a")] := by
  refine ⟨by decide, by decide, fun h => ?_⟩
  have hv := h "v"
  simp [Row.get] at hv

/-- C7 amended: for input streams A and B sorted by the keys that share
no non-key columns, left_join(A, B, K) and right_join(B, A, K) emit
pointwise equal rows (same length, same order, rows equal as column
maps).  With shared non-key columns the outputs differ, since neither
joiner renames and their dict merge precedences are opposite. -/
theorem c7_duality_amended (keys : List String) (A B : List Row)
    (hsA : List.Chain' (KeyLe keys) A) (hsB : List.Chain' (KeyLe keys) B)
    (hshare : ∀ x ∈ A, ∀ y ∈ B, sharedOnlyKeys keys x y = true) :
    List.Forall₂ Row.Equiv (leftJoin keys A B) (rightJoin keys B A) := by
  cases A with
  | nil =>
    cases B with
    | nil => exact List.Forall₂.nil
    | cons b bs => exact List.Forall₂.nil
  | cons a as =>
    cases B with
    | nil => exact List.Forall₂.nil
    | cons b bs =>
      show List.Forall₂ Row.Equiv (leftLoop keys a as b bs false)
        (rightLoop keys a as b bs false)
      refine dualLoop keys as a b bs false ?_
      intro x hx y hy
      exact sharedOnlyKeys_spec keys x y (hshare x hx y hy)

/-- Witness for C7 amended on one-row sorted inputs sharing only the key
column k. -/
theorem c7_duality_amended_witness :
    (List.Chain' (KeyLe ["k"]) [[("k", V.i 1), ("u", V.s "a")]] ∧
      List.Chain' (KeyLe ["k"]) [[("k", V.i 1), ("w", V.s "x")]] ∧
      ∀ x ∈ ([[("k", V.i 1), ("u", V.s "a")]] : List Row),
        ∀ y ∈ ([[("k", V.i 1), ("w", V.s "x")]] : List Row),
          sharedOnlyKeys ["k"] x y = true) ∧
    List.Forall₂ Row.Equiv
      (leftJoin ["k"] [[("k", V.i 1), ("u", V.s "a")]]
        [[("k", V.i 1), ("w", V.s "x")]])
      (rightJoin ["k"] [[("k", V.i 1), ("w", V.s "x")]]
        [[("k", V.i 1), ("u", V.s "a")]]) :=
  ⟨⟨List.chain'_singleton _, List.chain'_singleton _, by decide⟩,
    c7_duality_amended ["k"] [[("k", V.i 1), ("u", V.s "a")]]
      [[("k", V.i 1), ("w", V.s "x")]]
      (List.chain'_singleton _) (List.chain'_singleton _) (by decide)⟩

/-- C8: running a graph whose root node has no operator raises the
missing-operator error (Python TypeError, the realisation of ENoSource),
and the run delivers an error rather than any rows, so nothing is
retracted. -/
theorem c8_run_missing_operator (sources : List (String × List Row))
    (gs : List GraphM) :
    GraphM.run sources (GraphM.node none gs) = .error RunErr.eNoSource := rfl

/-- C9: FilterPunctuation, LowerCase and BinaryOperation assign into the
column of the row object they received and yield that same object: on a
heap of row objects, each returns the heap updated at the input address
and yields exactly that address, so the caller observes the mutated row
after the stream is consumed. -/
theorem c9_mappers_mutate_in_place (col : String) (f : Row → V)
    (h : List Row) (addr : Nat) (row : Row) (str : String)
    (hrow : h.getD addr [] = row) (hcol : row.get col = some (V.s str)) :
    filterPunctuationH col h addr =
      some (h.set addr (Row.set row col (V.s (stripPunct str))), [addr]) ∧
    lowerCaseH col h addr =
      some (h.set addr (Row.set row col (V.s (lowerStr str))), [addr]) ∧
    binaryOperationH f col h addr =
      (h.set addr (Row.set row col (f row)), [addr]) := by
  subst hrow
  refine ⟨?_, ?_, ?_⟩
  · simp only [filterPunctuationH]
    rw [hcol]
  · simp only [lowerCaseH]
    rw [hcol]
  · simp [binaryOperationH]

/-- Witness for C9 at a concrete heap: one row object at address 0 whose
column t holds "Ab."; all three mappers yield address 0 and the heap at 0
is visibly changed. -/
theorem c9_mappers_mutate_in_place_witness :
    (([[("t", V.s "Ab.")]] : List Row).getD 0 [] = [("t", V.s "Ab.")] ∧
        Row.get [("t", V.s "Ab.")] "t" = some (V.s "Ab.")) ∧
      (filterPunctuationH "t" [[("t", V.s "Ab.")]] 0 =
        some ([[("t", V.s "Ab.")]].set 0
          (Row.set [("t", V.s "Ab.")] "t" (V.s (stripPunct "Ab."))), [0]) ∧
      lowerCaseH "t" [[("t", V.s "Ab.")]] 0 =
        some ([[("t", V.s "Ab.")]].set 0
          (Row.set [("t", V.s "Ab.")] "t" (V.s (lowerStr "Ab."))), [0]) ∧
      binaryOperationH (fun _ => V.i 3) "t" [[("t", V.s "Ab.")]] 0 =
        ([[("t", V.s "Ab.")]].set 0
          (Row.set [("t", V.s "Ab.")] "t" (V.i 3)), [0])) :=
  ⟨⟨by decide, by decide⟩,
    c9_mappers_mutate_in_place "t" (fun _ => V.i 3) [[("t", V.s "Ab.")]] 0
      [("t", V.s "Ab.")] "Ab." (by decide) (by decide)⟩

/-- C10: InnerJoiner computes its overlap set once, from the first row
of each input only — every row it ever emits is the suffix-renaming
merge innerEmit taken with the overlap set of the two FIRST rows, so a
non-key column shared only by later rows is never treated as colliding;
LeftJoiner and RightJoiner never rename at all: each of their rows is a
bare input row or a plain dict merge of one row from each input. -/
theorem c10_overlap_from_first_rows (sa sb : String) (keys : List String)
    (a b : Row) (restA restB : List Row) (r1 r2 r3 : Row)
    (h1 : r1 ∈ innerJoin sa sb keys (a :: restA) (b :: restB))
    (h2 : r2 ∈ leftJoin keys (a :: restA) (b :: restB))
    (h3 : r3 ∈ rightJoin keys (a :: restA) (b :: restB)) :
    (∃ x, x ∈ a :: restA ∧ ∃ y, y ∈ b :: restB ∧
      r1 = innerEmit (overlapCols keys a b) sa sb x y) ∧
    (r2 ∈ a :: restA ∨
      ∃ x, x ∈ a :: restA ∧ ∃ y, y ∈ b :: restB ∧ r2 = Row.merge x y) ∧
    (r3 ∈ b :: restB ∨
      ∃ x, x ∈ a :: restA ∧ ∃ y, y ∈ b :: restB ∧ r3 = Row.merge x y) := by
  refine ⟨?_, ?_, ?_⟩
  · have h1' : r1 ∈ innerLoop keys (overlapCols keys a b) sa sb
        a restA b restB [] := h1
    obtain ⟨x, hx, y, hy, heq⟩ := innerLoop_shape keys (overlapCols keys a b)
      sa sb (restA.length + restB.length) restA restB a b [] r1
      (le_refl _) h1'
    rcases hy with h | h
    · exact absurd h (List.not_mem_nil y)
    · exact ⟨x, hx, y, h, heq⟩
  · exact leftLoop_shape keys restA a b restB false r2 h2
  · exact rightLoop_shape keys restB b a restA false r3 h3

/-- Witness for C10: the first rows share no non-key column, but the
second rows both carry column c; the join emits c un-renamed (right
value wins), confirming the overlap set is fixed by the first rows. -/
theorem c10_overlap_from_first_rows_witness :
    (([("k", V.i 2), ("c", V.s "s")] : Row) ∈
        innerJoin "_1" "_2" ["k"]
          [[("k", V.i 1), ("u", V.s "p")], [("k", V.i 2), ("c", V.s "q")]]
          [[("k", V.i 1), ("w", V.s "r")], [("k", V.i 2), ("c", V.s "s")]] ∧
      ([("k", V.i 2), ("c", V.s "s")] : Row) ∈
        leftJoin ["k"]
          [[("k", V.i 1), ("u", V.s "p")], [("k", V.i 2), ("c", V.s "q")]]
          [[("k", V.i 1), ("w", V.s "r")], [("k", V.i 2), ("c", V.s "s")]] ∧
      ([("k", V.i 2), ("c", V.s "s")] : Row) ∈
        rightJoin ["k"]
          [[("k", V.i 1), ("u", V.s "p")], [("k", V.i 2), ("c", V.s "q")]]
          [[("k", V.i 1), ("w", V.s "r")], [("k", V.i 2), ("c", V.s "s")]]) ∧
    ((∃ x, x ∈ ([[("k", V.i 1), ("u", V.s "p")],
          [("k", V.i 2), ("c", V.s "q")]] : List Row) ∧
        ∃ y, y ∈ ([[("k", V.i 1), ("w", V.s "r")],
            [("k", V.i 2), ("c", V.s "s")]] : List Row) ∧
          ([("k", V.i 2), ("c", V.s "s")] : Row) =
            innerEmit (overlapCols ["k"] [("k", V.i 1), ("u", V.s "p")]
              [("k", V.i 1), ("w", V.s "r")]) "_1" "_2" x y) ∧
      (([("k", V.i 2), ("c", V.s "s")] : Row) ∈
          ([[("k", V.i 1), ("u", V.s "p")],
            [("k", V.i 2), ("c", V.s "q")]] : List Row) ∨
        ∃ x, x ∈ ([[("k", V.i 1), ("u", V.s "p")],
            [("k", V.i 2), ("c", V.s "q")]] : List Row) ∧
          ∃ y, y ∈ ([[("k", V.i 1), ("w", V.s "r")],
              [("k", V.i 2), ("c", V.s "s")]] : List Row) ∧
            ([("k", V.i 2), ("c", V.s "s")] : Row) = Row.merge x y) ∧
      (([("k", V.i 2), ("c", V.s "s")] : Row) ∈
          ([[("k", V.i 1), ("w", V.s "r")],
            [("k", V.i 2), ("c", V.s "s")]] : List Row) ∨
        ∃ x, x ∈ ([[("k", V.i 1), ("u", V.s "p")],
            [("k", V.i 2), ("c", V.s "q")]] : List Row) ∧
          ∃ y, y ∈ ([[("k", V.i 1), ("w", V.s "r")],
              [("k", V.i 2), ("c", V.s "s")]] : List Row) ∧
            ([("k", V.i 2), ("c", V.s "s")] : Row) = Row.merge x y)) :=
  ⟨⟨by simp [innerJoin, innerLoop, innerFlush, innerEmit, matchedKeyIs,
      overlapCols, renameRow, Row.merge, Row.get, Row.hasCol, rowKey,
      listLtb, listGeb, V.ltb],
    by decide, by decide⟩,
    c10_overlap_from_first_rows "_1" "_2" ["k"]
      [("k", V.i 1), ("u", V.s "p")] [("k", V.i 1), ("w", V.s "r")]
      [[("k", V.i 2), ("c", V.s "q")]] [[("k", V.i 2), ("c", V.s "s")]]
      [("k", V.i 2), ("c", V.s "s")] [("k", V.i 2), ("c", V.s "s")]
      [("k", V.i 2), ("c", V.s "s")]
      (by simp [innerJoin, innerLoop, innerFlush, innerEmit, matchedKeyIs,
        overlapCols, renameRow, Row.merge, Row.get, Row.hasCol, rowKey,
        listLtb, listGeb, V.ltb])
      (by decide) (by decide)⟩

end Compgraph
